import Mathlib

/-!
Shallow embedding of `openlane/flows/sequential.py` (`SequentialFlow`):
the sequential pipeline executor (`SequentialFlow.run`) and the dynamic
pipeline factory (`SequentialFlow.make`), together with the progress-stage
events the executor emits.

The Python `State` type is opaque to this module, so the embedding is
generic over a state type `σ`.  A `Step` class instance is modelled by a
`StepDef`: its `id`, its display `name`, and its `start` operation.
-/

namespace OpenLane

/-- The two failure conditions a step's `start` can raise that the executor
catches: `MissingInputError` and `subprocess.CalledProcessError`, each
carrying a message (`str(e)`). -/
inductive StepError where
  | missingInputError (msg : String)
  | calledProcessError (msg : String)
deriving DecidableEq, Repr

/-- Modelled from the spec: the `Step` class lives outside this module
(`..steps`); per the spec a step exposes a stable string `id`, a
human-readable display `name`, and a run operation
`run(currentState) -> newState` that can fail with a missing-input or
tool-invocation condition.  `start` embeds that operation. -/
structure StepDef (σ : Type) where
  id : String
  name : String
  start : σ → Except StepError σ

/-- The two flow-level error classes `SequentialFlow.run` can raise:
`FlowException` (from `MissingInputError`) and `FlowError`
(from `subprocess.CalledProcessError`), each carrying `str(e)`. -/
inductive FlowErr where
  | flowException (msg : String)
  | flowError (msg : String)
deriving DecidableEq, Repr

/-- Observable progress-tracker events emitted by the executor:
`self.set_max_stage_count(n)`, `self.start_stage(name)`, and
`self.end_stage(no_increment_ordinal=b)`. -/
inductive Ev where
  | setMaxStageCount (n : Nat)
  | startStage (name : String)
  | endStage (noIncrementOrdinal : Bool)
deriving DecidableEq, Repr

/-- The `for cls in self.Steps:` loop of `SequentialFlow.run`.
`executing` is the enabled flag, `cur` the most recent element of
`state_list`.  Returns the progress events emitted by the remaining
iterations together with either the states appended and steps executed by
them, or the flow-level error that aborted the run.

Each iteration mirrors the Python body exactly: first the `frm` check
(`if frm is not None and frm == step.id: executing = True`), then
`start_stage`; a disabled iteration calls
`end_stage(no_increment_ordinal=True)` and continues; an enabled one
appends the step to `step_list`, calls `step.start()` on the current
state translating `MissingInputError` to `FlowException` and
`CalledProcessError` to `FlowError` (an exception propagates with no
further events), then appends the new state, calls `end_stage()`, and
finally applies the `to` check
(`if to is not None and to == step.id: executing = False`). -/
def runLoop {σ : Type} (frm toId : Option String) :
    Bool → σ → List (StepDef σ) →
    List Ev × Except FlowErr (List σ × List (StepDef σ))
  | _, _, [] => ([], .ok ([], []))
  | executing, cur, step :: rest =>
    let executing1 := if frm = some step.id then true else executing
    if executing1 then
      match step.start cur with
      | .error (.missingInputError e) =>
          ([.startStage step.name], .error (.flowException e))
      | .error (.calledProcessError e) =>
          ([.startStage step.name], .error (.flowError e))
      | .ok new_state =>
          let executing2 := if toId = some step.id then false else executing1
          let res := runLoop frm toId executing2 new_state rest
          (.startStage step.name :: .endStage false :: res.1,
            match res.2 with
            | .ok (states, steps) => .ok (new_state :: states, step :: steps)
            | .error e => .error e)
    else
      let res := runLoop frm toId executing1 cur rest
      (.startStage step.name :: .endStage true :: res.1, res.2)

/-- `SequentialFlow.run(initial_state, frm, to, **kwargs)`.  Emits
`set_max_stage_count(len(self.Steps))`, initialises
`state_list = [initial_state]`, `step_list = []`,
`executing = frm is None`, runs the loop, and on completion returns
`(state_list, step_list)`.  The extra keyword arguments are accepted and
ignored, as in the Python signature. -/
def run {σ : Type} (Steps : List (StepDef σ)) (initial_state : σ)
    (frm toId : Option String) (kwargs : List (String × String)) :
    List Ev × Except FlowErr (List σ × List (StepDef σ)) :=
  let step_count := Steps.length
  let res := runLoop frm toId frm.isNone initial_state Steps
  (Ev.setMaxStageCount step_count :: res.1,
    match res.2 with
    | .ok (states, steps) => .ok (initial_state :: states, steps)
    | .error e => .error e)

/-- Modelled from the spec: `Step.factory.get` (the process-wide step
registry, defined outside this module) is a `lookup(id) -> StepDefinition
| not-found` over registered step definitions; modelled as association
list lookup. -/
def factoryGet {σ : Type} (registry : List (String × StepDef σ))
    (name : String) : Option (StepDef σ) :=
  (registry.find? (fun p => p.1 == name)).map Prod.snd

/-- A pipeline definition: the class-level data of a `SequentialFlow`
subclass — its display `name` and its `Steps` list. -/
structure FlowDef (σ : Type) where
  name : String
  Steps : List (StepDef σ)

/-- The `for name in step_ids:` loop of `SequentialFlow.make`: resolve
each id via the factory, failing with
`TypeError(f"No step found with id '{name}'")` at the first unknown id. -/
def makeSteps {σ : Type} (registry : List (String × StepDef σ)) :
    List String → Except String (List (StepDef σ))
  | [] => .ok []
  | name :: rest =>
    match factoryGet registry name with
    | none => .error ("No step found with id '" ++ name ++ "'")
    | some step =>
      match makeSteps registry rest with
      | .ok steps => .ok (step :: steps)
      | .error e => .error e

/-- `SequentialFlow.make(step_ids)`: resolve every id and produce the
`CustomSequentialFlow` pipeline definition with display name
`"Custom Sequential Flow"` and the resolved step list. -/
def make {σ : Type} (registry : List (String × StepDef σ))
    (step_ids : List String) : Except String (FlowDef σ) :=
  match makeSteps registry step_ids with
  | .error e => .error e
  | .ok step_list => .ok { name := "Custom Sequential Flow", Steps := step_list }

/-- `Ev.startStage` recogniser (an `openStage` call). -/
def isStart : Ev → Bool
  | .startStage _ => true
  | _ => false

/-- `Ev.endStage` recogniser (a `closeStage` call). -/
def isEnd : Ev → Bool
  | .endStage _ => true
  | _ => false

/-- A `closeStage` that advances the stage ordinal
(`end_stage()` with `no_increment_ordinal=False`). -/
def isEndAdvance : Ev → Bool
  | .endStage b => !b
  | _ => false

/-- A `closeStage` that does not advance the stage ordinal
(`end_stage(no_increment_ordinal=True)`). -/
def isEndSkip : Ev → Bool
  | .endStage b => b
  | _ => false

/-- `Ev.setMaxStageCount` recogniser. -/
def isSetMax : Ev → Bool
  | .setMaxStageCount _ => true
  | _ => false

/-- An event list that is a sequence of `openStage`/`closeStage` pairs. -/
inductive StagePaired : List Ev → Prop
  | nil : StagePaired []
  | cons (n : String) (b : Bool) {tr : List Ev} :
      StagePaired tr → StagePaired (.startStage n :: .endStage b :: tr)


/-- Concrete step fixtures over `σ = Nat` used by witnesses and
counterexamples.  `cexA`/`cexB`/`cexC` always succeed, adding a
step-specific amount to the state. -/
def cexA : StepDef Nat := ⟨"a", "Step A", fun s => .ok (s + 1)⟩

def cexB : StepDef Nat := ⟨"b", "Step B", fun s => .ok (s + 10)⟩

def cexC : StepDef Nat := ⟨"c", "Step C", fun s => .ok (s + 100)⟩

/-- Fixtures with a duplicated id `"a"`, for probing window re-enabling. -/
def dupA1 : StepDef Nat := ⟨"a", "A1", fun s => .ok (s + 1)⟩

def dupB : StepDef Nat := ⟨"b", "B", fun s => .ok (s + 10)⟩

def dupA2 : StepDef Nat := ⟨"a", "A2", fun s => .ok (s + 100)⟩

/-- A step that always fails with `MissingInputError`. -/
def failStep : StepDef Nat := ⟨"f", "F", fun _ => .error (.missingInputError "missing x")⟩

/-- A step that always fails with `subprocess.CalledProcessError`. -/
def failTool : StepDef Nat := ⟨"g", "G", fun _ => .error (.calledProcessError "exit 1")⟩

/-- A concrete two-entry step registry for `make` witnesses. -/
def regAB : List (String × StepDef Nat) := [("a", cexA), ("b", cexB)]

/-- Unfolding `runLoop` on a `cons` when the enabled flag (after the `frm`
check) is true. -/
theorem runLoop_cons_exec {σ : Type} (frm toId : Option String) (step : StepDef σ)
    (rest : List (StepDef σ)) (ex : Bool) (cur : σ)
    (hex : (if frm = some step.id then true else ex) = true) :
    runLoop frm toId ex cur (step :: rest) =
      match step.start cur with
      | .error (.missingInputError e) =>
          ([.startStage step.name], .error (.flowException e))
      | .error (.calledProcessError e) =>
          ([.startStage step.name], .error (.flowError e))
      | .ok new_state =>
          (.startStage step.name :: .endStage false ::
              (runLoop frm toId (if toId = some step.id then false else true) new_state rest).1,
            match (runLoop frm toId (if toId = some step.id then false else true) new_state rest).2 with
            | .ok (states, steps) => .ok (new_state :: states, step :: steps)
            | .error e => .error e) := by
  simp only [runLoop, hex, if_true]

/-- Unfolding `runLoop` on a `cons` when the enabled flag (after the `frm`
check) is false: the iteration emits an open/close pair with
`no_increment_ordinal=True` and passes the state through. -/
theorem runLoop_cons_skip {σ : Type} (frm toId : Option String) (step : StepDef σ)
    (rest : List (StepDef σ)) (ex : Bool) (cur : σ)
    (hex : (if frm = some step.id then true else ex) = false) :
    runLoop frm toId ex cur (step :: rest) =
      (.startStage step.name :: .endStage true :: (runLoop frm toId false cur rest).1,
        (runLoop frm toId false cur rest).2) := by
  simp only [runLoop, hex, if_false, Bool.false_eq_true]

/-- Structural invariants of a loop run that completes without raising:
one appended state per executed step, executed steps form a sublist of
the iterated steps, each executed step maps the preceding state to the
next, and with the flag on and no `to` bound every step executes. -/
theorem runLoop_ok_spec {σ : Type} (frm toId : Option String) :
    ∀ (steps : List (StepDef σ)) (ex : Bool) (cur : σ) (tr : List Ev)
      (sts : List σ) (exs : List (StepDef σ)),
    runLoop frm toId ex cur steps = (tr, .ok (sts, exs)) →
    sts.length = exs.length ∧ exs.Sublist steps ∧
    (∀ (d : StepDef σ) (i : Nat), i < exs.length →
      (exs.getD i d).start ((cur :: sts).getD i cur) = .ok ((cur :: sts).getD (i+1) cur)) ∧
    ((ex = true ∧ toId = none) → exs = steps) := by
  intro steps
  induction steps with
  | nil =>
    intro ex cur tr sts exs h
    simp only [runLoop, Prod.mk.injEq, Except.ok.injEq] at h
    obtain ⟨-, hsts, hexs⟩ := h
    subst hsts; subst hexs
    refine ⟨rfl, List.Sublist.refl _, ?_, fun _ => rfl⟩
    intro d i hi
    exact absurd hi (by simp)
  | cons step rest ih =>
    intro ex cur tr sts exs h
    by_cases hex : (if frm = some step.id then true else ex) = true
    · rw [runLoop_cons_exec frm toId step rest ex cur hex] at h
      rcases hst : step.start cur with e | new_state
      · rcases e with e | e <;> rw [hst] at h <;> simp at h
      · rw [hst] at h
        dsimp only at h
        rcases hrr : runLoop frm toId (if toId = some step.id then false else true) new_state rest
          with ⟨tr2, res2⟩
        rw [hrr] at h
        rcases res2 with e | ⟨sts2, exs2⟩
        · simp at h
        · simp only [Prod.mk.injEq, Except.ok.injEq] at h
          obtain ⟨-, hsts, hexs⟩ := h
          subst hsts; subst hexs
          obtain ⟨ihlen, ihsub, ihget, ihall⟩ :=
            ih (if toId = some step.id then false else true) new_state tr2 sts2 exs2 hrr
          refine ⟨by simp [ihlen], List.Sublist.cons₂ step ihsub, ?_, ?_⟩
          · intro d i hi
            match i with
            | 0 => simpa using hst
            | Nat.succ j =>
              have hj : j < exs2.length := by simpa using hi
              have hmain := ihget d j hj
              have hlt1 : j < (new_state :: sts2).length := by
                simp only [List.length_cons, ihlen]
                omega
              have hlt2 : j + 1 < (new_state :: sts2).length := by
                simp only [List.length_cons, ihlen]
                omega
              have hd1 : (new_state :: sts2).getD j cur = (new_state :: sts2).getD j new_state := by
                rw [List.getD_eq_getElem _ _ hlt1, List.getD_eq_getElem _ _ hlt1]
              have hj2 : j < sts2.length := by
                rw [ihlen]
                exact hj
              have hd2 : sts2.getD j cur = sts2.getD j new_state := by
                rw [List.getD_eq_getElem _ _ hj2, List.getD_eq_getElem _ _ hj2]
              simp only [List.getD_cons_succ] at hmain ⊢
              rw [hd1, hd2]
              exact hmain
          · rintro ⟨-, htonone⟩
            subst htonone
            have hrest : exs2 = rest := ihall (by simp)
            rw [hrest]
    · have hexf : (if frm = some step.id then true else ex) = false :=
        Bool.eq_false_iff.mpr hex
      rw [runLoop_cons_skip frm toId step rest ex cur hexf] at h
      rcases hrr : runLoop frm toId false cur rest with ⟨tr2, res2⟩
      rw [hrr] at h
      simp only [Prod.mk.injEq] at h
      obtain ⟨-, h2⟩ := h
      rw [h2] at hrr
      obtain ⟨ihlen, ihsub, ihget, ihall⟩ := ih false cur tr2 sts exs hrr
      refine ⟨ihlen, ihsub.cons step, ihget, ?_⟩
      rintro ⟨hexT, -⟩
      rw [hexT] at hexf
      simp at hexf

/-- With the enabled flag off and `frm` matching no step id, the loop
executes nothing and appends nothing. -/
theorem runLoop_skipAll {σ : Type} (frm toId : Option String) :
    ∀ (steps : List (StepDef σ)) (cur : σ),
    (∀ st ∈ steps, frm ≠ some st.id) →
    (runLoop frm toId false cur steps).2 = .ok ([], []) := by
  intro steps
  induction steps with
  | nil => intro cur _ ; rfl
  | cons step rest ih =>
    intro cur hfrm
    have hexf : (if frm = some step.id then true else false) = false := by
      rw [if_neg (hfrm step (List.mem_cons_self step rest))]
    rw [runLoop_cons_skip frm toId step rest false cur hexf]
    exact ih cur (fun st hst => hfrm st (List.mem_cons_of_mem step hst))

/-- A leading block of steps none of which matches `frm` is skipped
wholesale: the result is that of the loop on the remaining steps. -/
theorem runLoop_skipLeading {σ : Type} (frm toId : Option String) :
    ∀ (pre rest : List (StepDef σ)) (cur : σ),
    (∀ st ∈ pre, frm ≠ some st.id) →
    (runLoop frm toId false cur (pre ++ rest)).2 = (runLoop frm toId false cur rest).2 := by
  intro pre
  induction pre with
  | nil => intro rest cur _ ; rfl
  | cons step pre2 ih =>
    intro rest cur hfrm
    have hexf : (if frm = some step.id then true else false) = false := by
      rw [if_neg (hfrm step (List.mem_cons_self step pre2))]
    rw [List.cons_append, runLoop_cons_skip frm toId step (pre2 ++ rest) false cur hexf]
    exact ih rest cur (fun st hst => hfrm st (List.mem_cons_of_mem step hst))

/-- With `frm` equal to the head step id and no `to` bound, a completed
run executes the head and everything after it. -/
theorem runLoop_execHead_all {σ : Type} (frm : Option String) (sk : StepDef σ)
    (post : List (StepDef σ)) (cur : σ) (tr : List Ev) (sts : List σ)
    (exs : List (StepDef σ)) (hfrm : frm = some sk.id)
    (h : runLoop frm none false cur (sk :: post) = (tr, .ok (sts, exs))) :
    exs = sk :: post := by
  rw [runLoop_cons_exec frm none sk post false cur (by rw [if_pos hfrm])] at h
  rcases hst : sk.start cur with e | new_state
  · rcases e with e | e <;> rw [hst] at h <;> simp at h
  · rw [hst] at h
    dsimp only at h
    rcases hrr : runLoop frm none (if (none : Option String) = some sk.id then false else true)
        new_state post with ⟨tr2, res2⟩
    rw [hrr] at h
    rcases res2 with e | ⟨sts2, exs2⟩
    · simp at h
    · simp only [Prod.mk.injEq, Except.ok.injEq] at h
      obtain ⟨-, -, hexs⟩ := h
      subst hexs
      have hflag : (if (none : Option String) = some sk.id then false else true) = true := by
        simp
      rw [hflag] at hrr
      have := (runLoop_ok_spec frm none post true new_state tr2 sts2 exs2 hrr).2.2.2 ⟨rfl, rfl⟩
      rw [this]

/-- Distinct positions carry distinct ids when the id list is `Nodup`. -/
theorem nodup_id_ne {σ : Type} (steps : List (StepDef σ))
    (hnd : (steps.map StepDef.id).Nodup) (i j : Nat)
    (hi : i < steps.length) (hj : j < steps.length) (hne : i ≠ j) :
    (steps.get ⟨i, hi⟩).id ≠ (steps.get ⟨j, hj⟩).id := by
  intro hid
  have hi2 : i < (steps.map StepDef.id).length := by simpa using hi
  have hj2 : j < (steps.map StepDef.id).length := by simpa using hj
  have : (steps.map StepDef.id).get ⟨i, hi2⟩ = (steps.map StepDef.id).get ⟨j, hj2⟩ := by
    simpa [List.getElem_map] using hid
  exact hne (Fin.mk.injEq .. ▸ (hnd.get_inj_iff.mp this))

/-- With no `frm` bound, the flag on, and `t` the id of the `k`-th step
(no earlier step sharing it), a completed run executes exactly the first
`k+1` steps. -/
theorem runLoop_execTo {σ : Type} (t : String) :
    ∀ (steps : List (StepDef σ)) (k : Nat) (hk : k < steps.length) (cur : σ)
      (tr : List Ev) (sts : List σ) (exs : List (StepDef σ)),
    (∀ i (hi : i < k), (steps.get ⟨i, Nat.lt_trans hi hk⟩).id ≠ t) →
    (steps.get ⟨k, hk⟩).id = t →
    runLoop none (some t) true cur steps = (tr, .ok (sts, exs)) →
    exs = steps.take (k+1) := by
  intro steps
  induction steps with
  | nil => intro k hk ; exact absurd hk (by simp)
  | cons step rest ih =>
    intro k hk cur tr sts exs hpre hkt h
    have hex : (if (none : Option String) = some step.id then true else true) = true := by simp
    rw [runLoop_cons_exec none (some t) step rest true cur hex] at h
    rcases hst : step.start cur with e | new_state
    · rcases e with e | e <;> rw [hst] at h <;> simp at h
    · rw [hst] at h
      dsimp only at h
      rcases hrr : runLoop none (some t) (if some t = some step.id then false else true)
          new_state rest with ⟨tr2, res2⟩
      rw [hrr] at h
      rcases res2 with e | ⟨sts2, exs2⟩
      · simp at h
      · simp only [Prod.mk.injEq, Except.ok.injEq] at h
        obtain ⟨-, -, hexs⟩ := h
        subst hexs
        match k with
        | 0 =>
          have hmatch : some t = some step.id := by
            simp only [List.get] at hkt
            rw [hkt]
          rw [if_pos hmatch] at hrr
          have h2 : exs2 = [] := by
            have := runLoop_skipAll none (some t) rest new_state (fun st _ => by simp)
            rw [hrr] at this
            exact (Prod.mk.injEq .. ▸ (Except.ok.inj this)).2
          rw [h2]
          rfl
        | Nat.succ k2 =>
          have hne : step.id ≠ t := by
            have := hpre 0 (Nat.succ_pos k2)
            simpa using this
          have hnomatch : ¬ (some t = some step.id) := by
            intro hc
            exact hne ((Option.some.injEq .. ▸ hc).symm)
          rw [if_neg hnomatch] at hrr
          have hk2 : k2 < rest.length := by simpa using hk
          have hpre2 : ∀ i (hi : i < k2), (rest.get ⟨i, Nat.lt_trans hi hk2⟩).id ≠ t := by
            intro i hi
            have := hpre (i+1) (Nat.succ_lt_succ hi)
            simpa using this
          have hkt2 : (rest.get ⟨k2, hk2⟩).id = t := by simpa using hkt
          have := ih k2 hk2 new_state tr2 sts2 exs2 hpre2 hkt2 hrr
          rw [this]
          rfl

/-- The loop itself never emits a `setMaxStageCount` event. -/
theorem runLoop_trace_setMax {σ : Type} (frm toId : Option String) :
    ∀ (steps : List (StepDef σ)) (ex : Bool) (cur : σ),
    ((runLoop frm toId ex cur steps).1).countP isSetMax = 0 := by
  intro steps
  induction steps with
  | nil => intro ex cur ; rfl
  | cons step rest ih =>
    intro ex cur
    by_cases hex : (if frm = some step.id then true else ex) = true
    · rw [runLoop_cons_exec frm toId step rest ex cur hex]
      rcases hst : step.start cur with e | new_state
      · rcases e with e | e <;> simp [hst, List.countP_cons, isSetMax]
      · simp [hst, List.countP_cons, isSetMax, ih]
    · have hexf : (if frm = some step.id then true else ex) = false :=
        Bool.eq_false_iff.mpr hex
      rw [runLoop_cons_skip frm toId step rest ex cur hexf]
      simp [List.countP_cons, isSetMax, ih]

/-- Trace shape of a completed loop run: a sequence of open/close stage
pairs, one per step, with exactly one ordinal-advancing close per
executed step and one non-advancing close per skipped step. -/
theorem runLoop_trace_ok {σ : Type} (frm toId : Option String) :
    ∀ (steps : List (StepDef σ)) (ex : Bool) (cur : σ) (tr : List Ev)
      (sts : List σ) (exs : List (StepDef σ)),
    runLoop frm toId ex cur steps = (tr, .ok (sts, exs)) →
    StagePaired tr ∧ tr.countP isStart = steps.length ∧ tr.countP isEnd = steps.length ∧
    tr.countP isEndAdvance = exs.length ∧ tr.countP isEndSkip + exs.length = steps.length := by
  intro steps
  induction steps with
  | nil =>
    intro ex cur tr sts exs h
    simp only [runLoop, Prod.mk.injEq, Except.ok.injEq] at h
    obtain ⟨htr, -, hexs⟩ := h
    subst htr; subst hexs
    exact ⟨StagePaired.nil, rfl, rfl, rfl, rfl⟩
  | cons step rest ih =>
    intro ex cur tr sts exs h
    by_cases hex : (if frm = some step.id then true else ex) = true
    · rw [runLoop_cons_exec frm toId step rest ex cur hex] at h
      rcases hst : step.start cur with e | new_state
      · rcases e with e | e <;> rw [hst] at h <;> simp at h
      · rw [hst] at h
        dsimp only at h
        rcases hrr : runLoop frm toId (if toId = some step.id then false else true) new_state rest
          with ⟨tr2, res2⟩
        rw [hrr] at h
        rcases res2 with e | ⟨sts2, exs2⟩
        · simp at h
        · simp only [Prod.mk.injEq, Except.ok.injEq] at h
          obtain ⟨htr, -, hexs⟩ := h
          subst htr; subst hexs
          obtain ⟨ihp, ihs, ihe, iha, ihk⟩ := ih _ new_state tr2 sts2 exs2 hrr
          refine ⟨StagePaired.cons step.name false ihp, ?_, ?_, ?_, ?_⟩
          · simp [List.countP_cons, isStart, ihs]
          · simp [List.countP_cons, isEnd, ihe]
          · simp [List.countP_cons, isEndAdvance, iha]
          · have e1 : (Ev.startStage step.name :: Ev.endStage false :: tr2).countP isEndSkip
                = tr2.countP isEndSkip := by
              simp [List.countP_cons, isEndSkip]
            rw [e1, List.length_cons, List.length_cons]
            omega
    · have hexf : (if frm = some step.id then true else ex) = false :=
        Bool.eq_false_iff.mpr hex
      rw [runLoop_cons_skip frm toId step rest ex cur hexf] at h
      rcases hrr : runLoop frm toId false cur rest with ⟨tr2, res2⟩
      rw [hrr] at h
      simp only [Prod.mk.injEq] at h
      obtain ⟨htr, h2⟩ := h
      subst htr
      rw [h2] at hrr
      obtain ⟨ihp, ihs, ihe, iha, ihk⟩ := ih false cur tr2 sts exs hrr
      refine ⟨StagePaired.cons step.name true ihp, ?_, ?_, ?_, ?_⟩
      · simp [List.countP_cons, isStart, ihs]
      · simp [List.countP_cons, isEnd, ihe]
      · simp [List.countP_cons, isEndAdvance, iha]
      · have e1 : (Ev.startStage step.name :: Ev.endStage true :: tr2).countP isEndSkip
            = tr2.countP isEndSkip + 1 := by
          simp [List.countP_cons, isEndSkip]
        rw [e1, List.length_cons]
        omega

/-- Trace shape of an aborted loop run: exactly one more `openStage`
than `closeStage` — the failing iteration opens its stage and raises
before closing it. -/
theorem runLoop_trace_error {σ : Type} (frm toId : Option String) :
    ∀ (steps : List (StepDef σ)) (ex : Bool) (cur : σ) (tr : List Ev) (e : FlowErr),
    runLoop frm toId ex cur steps = (tr, .error e) →
    tr.countP isStart = tr.countP isEnd + 1 := by
  intro steps
  induction steps with
  | nil =>
    intro ex cur tr e h
    simp only [runLoop, Prod.mk.injEq] at h
    exact absurd h.2 (by simp)
  | cons step rest ih =>
    intro ex cur tr e h
    by_cases hex : (if frm = some step.id then true else ex) = true
    · rw [runLoop_cons_exec frm toId step rest ex cur hex] at h
      rcases hst : step.start cur with e2 | new_state
      · rcases e2 with m | m <;> rw [hst] at h <;>
          simp only [Prod.mk.injEq] at h <;> rw [← h.1] <;> rfl
      · rw [hst] at h
        dsimp only at h
        rcases hrr : runLoop frm toId (if toId = some step.id then false else true) new_state rest
          with ⟨tr2, res2⟩
        rw [hrr] at h
        rcases res2 with e2 | ⟨sts2, exs2⟩
        · simp only [Prod.mk.injEq, Except.error.injEq] at h
          rw [h.2] at hrr
          have := ih _ new_state tr2 e hrr
          rw [← h.1]
          simp only [List.countP_cons]
          have e1 : isStart (Ev.startStage step.name) = true := rfl
          have e2 : isStart (Ev.endStage false) = false := rfl
          have e3 : isEnd (Ev.startStage step.name) = false := rfl
          have e4 : isEnd (Ev.endStage false) = true := rfl
          rw [e1, e2, e3, e4]
          simp only [if_pos rfl, if_neg (by simp : ¬ (false = true))]
          omega
        · simp at h
    · have hexf : (if frm = some step.id then true else ex) = false :=
        Bool.eq_false_iff.mpr hex
      rw [runLoop_cons_skip frm toId step rest ex cur hexf] at h
      rcases hrr : runLoop frm toId false cur rest with ⟨tr2, res2⟩
      rw [hrr] at h
      simp only [Prod.mk.injEq] at h
      rw [h.2] at hrr
      have := ih false cur tr2 e hrr
      rw [← h.1]
      simp only [List.countP_cons]
      have e1 : isStart (Ev.startStage step.name) = true := rfl
      have e2 : isStart (Ev.endStage true) = false := rfl
      have e3 : isEnd (Ev.startStage step.name) = false := rfl
      have e4 : isEnd (Ev.endStage true) = true := rfl
      rw [e1, e2, e3, e4]
      simp only [if_pos rfl, if_neg (by simp : ¬ (false = true))]
      omega

/-- Every error produced by the loop originates in a step of the list
failing on some state, with class and message preserved. -/
theorem runLoop_error_char {σ : Type} (frm toId : Option String) :
    ∀ (steps : List (StepDef σ)) (ex : Bool) (cur : σ) (tr : List Ev) (e : FlowErr),
    runLoop frm toId ex cur steps = (tr, .error e) →
    ∃ st ∈ steps, ∃ s m,
      ((e = .flowException m ∧ st.start s = .error (.missingInputError m)) ∨
       (e = .flowError m ∧ st.start s = .error (.calledProcessError m))) := by
  intro steps
  induction steps with
  | nil =>
    intro ex cur tr e h
    simp only [runLoop, Prod.mk.injEq] at h
    exact absurd h.2 (by simp)
  | cons step rest ih =>
    intro ex cur tr e h
    by_cases hex : (if frm = some step.id then true else ex) = true
    · rw [runLoop_cons_exec frm toId step rest ex cur hex] at h
      rcases hst : step.start cur with e2 | new_state
      · rcases e2 with m | m <;> rw [hst] at h <;>
          simp only [Prod.mk.injEq, Except.error.injEq] at h
        · exact ⟨step, List.mem_cons_self step rest, cur, m, Or.inl ⟨h.2.symm, hst⟩⟩
        · exact ⟨step, List.mem_cons_self step rest, cur, m, Or.inr ⟨h.2.symm, hst⟩⟩
      · rw [hst] at h
        dsimp only at h
        rcases hrr : runLoop frm toId (if toId = some step.id then false else true) new_state rest
          with ⟨tr2, res2⟩
        rw [hrr] at h
        rcases res2 with e2 | ⟨sts2, exs2⟩
        · simp only [Prod.mk.injEq, Except.error.injEq] at h
          rw [h.2] at hrr
          obtain ⟨st, hmem, s, m, hcase⟩ := ih _ new_state tr2 e hrr
          exact ⟨st, List.mem_cons_of_mem step hmem, s, m, hcase⟩
        · simp at h
    · have hexf : (if frm = some step.id then true else ex) = false :=
        Bool.eq_false_iff.mpr hex
      rw [runLoop_cons_skip frm toId step rest ex cur hexf] at h
      rcases hrr : runLoop frm toId false cur rest with ⟨tr2, res2⟩
      rw [hrr] at h
      simp only [Prod.mk.injEq] at h
      rw [h.2] at hrr
      obtain ⟨st, hmem, s, m, hcase⟩ := ih false cur tr2 e hrr
      exact ⟨st, List.mem_cons_of_mem step hmem, s, m, hcase⟩

/-- The `makeSteps` loop fails naming the first id whose registry lookup
misses. -/
theorem makeSteps_first_unknown {σ : Type} (registry : List (String × StepDef σ)) :
    ∀ (ids : List String) (n : String),
    ids.find? (fun x => (factoryGet registry x).isNone) = some n →
    makeSteps registry ids = .error ("No step found with id '" ++ n ++ "'") := by
  intro ids
  induction ids with
  | nil => intro n h ; simp [List.find?] at h
  | cons x rest ih =>
    intro n h
    simp only [List.find?] at h
    by_cases hx : (factoryGet registry x).isNone = true
    · rw [hx] at h
      simp only [cond_true] at h
      obtain rfl := Option.some.inj h
      simp only [makeSteps]
      rw [Option.isNone_iff_eq_none] at hx
      rw [hx]
    · have hx2 : (factoryGet registry x).isNone = false := Bool.eq_false_iff.mpr hx
      rw [hx2] at h
      simp only [cond_false] at h
      simp only [makeSteps]
      rcases hg : factoryGet registry x with - | step
      · rw [hg] at hx2 ; simp at hx2
      · rw [ih n h]

/-- When every id resolves, `makeSteps` returns the resolved definitions
positionally. -/
theorem makeSteps_all_known {σ : Type} (registry : List (String × StepDef σ)) :
    ∀ (ids : List String),
    (∀ n ∈ ids, (factoryGet registry n).isSome = true) →
    ∃ steps, makeSteps registry ids = .ok steps ∧ steps.length = ids.length ∧
      ∀ (i : Nat) (hi : i < ids.length) (hi2 : i < steps.length),
        factoryGet registry (ids.get ⟨i, hi⟩) = some (steps.get ⟨i, hi2⟩) := by
  intro ids
  induction ids with
  | nil =>
    intro _
    exact ⟨[], rfl, rfl, fun i hi => absurd hi (by simp)⟩
  | cons x rest ih =>
    intro hall
    rcases hg : factoryGet registry x with - | step
    · have := hall x (List.mem_cons_self x rest)
      rw [hg] at this ; simp at this
    · obtain ⟨steps2, hok, hlen, hget⟩ :=
        ih (fun n hn => hall n (List.mem_cons_of_mem x hn))
      refine ⟨step :: steps2, ?_, by simp [hlen], ?_⟩
      · simp only [makeSteps]
        rw [hg, hok]
      · intro i hi hi2
        match i with
        | 0 => simpa using hg
        | Nat.succ j =>
          have hj : j < rest.length := by simpa using hi
          have hj2 : j < steps2.length := by simpa using hi2
          simpa using hget j hj hj2

/-- Inversion of a normally-returning `run` into its loop. -/
theorem run_ok_inv {σ : Type} (Steps : List (StepDef σ)) (initial_state : σ)
    (frm toId : Option String) (kwargs : List (String × String)) (tr : List Ev)
    (states : List σ) (executed : List (StepDef σ))
    (h : run Steps initial_state frm toId kwargs = (tr, .ok (states, executed))) :
    ∃ tr2 sts, runLoop frm toId frm.isNone initial_state Steps = (tr2, .ok (sts, executed)) ∧
      tr = Ev.setMaxStageCount Steps.length :: tr2 ∧ states = initial_state :: sts := by
  simp only [run] at h
  rcases hrr : runLoop frm toId frm.isNone initial_state Steps with ⟨tr2, res2⟩
  rw [hrr] at h
  rcases res2 with e | ⟨sts2, exs2⟩
  · simp at h
  · simp only [Prod.mk.injEq, Except.ok.injEq] at h
    obtain ⟨htr, hsts, hexs⟩ := h
    subst hexs
    exact ⟨tr2, sts2, rfl, htr.symm, hsts.symm⟩

/-- Inversion of a raising `run` into its loop. -/
theorem run_error_inv {σ : Type} (Steps : List (StepDef σ)) (initial_state : σ)
    (frm toId : Option String) (kwargs : List (String × String)) (tr : List Ev) (e : FlowErr)
    (h : run Steps initial_state frm toId kwargs = (tr, .error e)) :
    ∃ tr2, runLoop frm toId frm.isNone initial_state Steps = (tr2, .error e) ∧
      tr = Ev.setMaxStageCount Steps.length :: tr2 := by
  simp only [run] at h
  rcases hrr : runLoop frm toId frm.isNone initial_state Steps with ⟨tr2, res2⟩
  rw [hrr] at h
  rcases res2 with e2 | ⟨sts2, exs2⟩
  · simp only [Prod.mk.injEq, Except.error.injEq] at h
    obtain ⟨htr, he⟩ := h
    subst he
    exact ⟨tr2, rfl, htr.symm⟩
  · simp at h

/-- C1: whenever `run` returns normally, `states` has length
`1 + |executed|`, its first element is the caller-supplied initial state,
and `executed` is a subsequence of the pipeline step list in pipeline
order containing no skipped steps; with no window bounds, `executed` is
the whole pipeline, so `states` has length `N+1` and `executed` length
`N`, in pipeline order. -/
theorem run_states_executed_shape {σ : Type} (Steps : List (StepDef σ)) (initial_state : σ)
    (frm toId : Option String) (kwargs : List (String × String)) (tr : List Ev)
    (states : List σ) (executed : List (StepDef σ))
    (h : run Steps initial_state frm toId kwargs = (tr, .ok (states, executed))) :
    states.length = 1 + executed.length ∧
    states.head? = some initial_state ∧
    executed.Sublist Steps ∧
    (frm = none ∧ toId = none →
      executed = Steps ∧ states.length = Steps.length + 1 ∧
      executed.length = Steps.length) := by
  obtain ⟨tr2, sts, hrr, -, hstates⟩ :=
    run_ok_inv Steps initial_state frm toId kwargs tr states executed h
  obtain ⟨hlen, hsub, -, hall⟩ :=
    runLoop_ok_spec frm toId Steps frm.isNone initial_state tr2 sts executed hrr
  subst hstates
  refine ⟨by simp [hlen] ; omega, rfl, hsub, ?_⟩
  rintro ⟨hfrm, htoid⟩
  have hsteps : executed = Steps := hall ⟨by rw [hfrm] ; rfl, htoid⟩
  exact ⟨hsteps, by simp [hlen, hsteps], by rw [hsteps]⟩

/-- Witness: C1 instantiated on the two-step pipeline `[cexA, cexB]`. -/
theorem run_states_executed_shape_witness :
    ([0, 1, 11] : List Nat).length = 1 + ([cexA, cexB] : List (StepDef Nat)).length ∧
    ([0, 1, 11] : List Nat).head? = some 0 ∧
    List.Sublist [cexA, cexB] [cexA, cexB] ∧
    ((none : Option String) = none ∧ (none : Option String) = none →
      ([cexA, cexB] : List (StepDef Nat)) = [cexA, cexB] ∧
      ([0, 1, 11] : List Nat).length = ([cexA, cexB] : List (StepDef Nat)).length + 1 ∧
      ([cexA, cexB] : List (StepDef Nat)).length = ([cexA, cexB] : List (StepDef Nat)).length) :=
  run_states_executed_shape [cexA, cexB] 0 none none []
    [.setMaxStageCount 2, .startStage "Step A", .endStage false,
     .startStage "Step B", .endStage false]
    [0, 1, 11] [cexA, cexB] rfl

/-- C5: every executed step's run operation is invoked against the most
recent element of `states`, and on success the returned state is
appended: `executed[i]` applied to `states[i]` yields `states[i+1]`. -/
theorem run_uses_latest_state {σ : Type} (Steps : List (StepDef σ)) (initial_state : σ)
    (frm toId : Option String) (kwargs : List (String × String)) (tr : List Ev)
    (states : List σ) (executed : List (StepDef σ))
    (h : run Steps initial_state frm toId kwargs = (tr, .ok (states, executed))) :
    ∀ (d : StepDef σ) (i : Nat), i < executed.length →
      (executed.getD i d).start (states.getD i initial_state)
        = .ok (states.getD (i+1) initial_state) := by
  obtain ⟨tr2, sts, hrr, -, hstates⟩ :=
    run_ok_inv Steps initial_state frm toId kwargs tr states executed h
  subst hstates
  exact (runLoop_ok_spec frm toId Steps frm.isNone initial_state tr2 sts executed hrr).2.2.1

/-- Witness: C5 at `i = 1` on the pipeline `[cexA, cexB]`. -/
theorem run_uses_latest_state_witness :
    (([cexA, cexB] : List (StepDef Nat)).getD 1 cexA).start (([0, 1, 11] : List Nat).getD 1 0)
      = .ok (([0, 1, 11] : List Nat).getD 2 0) :=
  run_uses_latest_state [cexA, cexB] 0 none none []
    [.setMaxStageCount 2, .startStage "Step A", .endStage false,
     .startStage "Step B", .endStage false]
    [0, 1, 11] [cexA, cexB] rfl cexA 1 (by decide)

/-- C6: a `frm` id matching no step id in the pipeline executes zero
steps and returns `states = [initial_state]` — the enabled flag is never
turned on. -/
theorem run_from_unmatched {σ : Type} (Steps : List (StepDef σ)) (initial_state : σ)
    (f : String) (toId : Option String) (kwargs : List (String × String))
    (h : ∀ st ∈ Steps, st.id ≠ f) :
    (run Steps initial_state (some f) toId kwargs).2 = .ok ([initial_state], []) := by
  have h2 : (runLoop (some f) toId false initial_state Steps).2 = .ok ([], []) :=
    runLoop_skipAll (some f) toId Steps initial_state
      (fun st hst hc => h st hst (Option.some.inj hc).symm)
  simp only [run, Option.isNone_some]
  rw [h2]

/-- Witness: C6 with the unmatched id `"z"`. -/
theorem run_from_unmatched_witness :
    (run [cexA, cexB] 0 (some "z") none []).2 = .ok ([0], []) :=
  run_from_unmatched [cexA, cexB] 0 "z" none [] (by decide)

/-- C10: `run` accepts arbitrary extra keyword arguments and they have
no effect: two calls differing only in them return the same result. -/
theorem run_kwargs_irrelevant {σ : Type} (Steps : List (StepDef σ)) (initial_state : σ)
    (frm toId : Option String) (kwargs1 kwargs2 : List (String × String)) :
    run Steps initial_state frm toId kwargs1 = run Steps initial_state frm toId kwargs2 := rfl

/-- C7: with distinct step ids, no `to` bound and a successful run,
`frm` equal to the `k`-th step's id (0-indexed here; `k+1`-th 1-indexed)
executes exactly the steps from the `k`-th on — `executed = Steps.drop k`
of length `N - k`; the from boundary is inclusive. -/
theorem run_from_kth {σ : Type} (Steps : List (StepDef σ)) (initial_state : σ)
    (kwargs : List (String × String)) (hnd : (Steps.map StepDef.id).Nodup)
    (k : Nat) (hk : k < Steps.length) (tr : List Ev)
    (states : List σ) (executed : List (StepDef σ))
    (h : run Steps initial_state (some ((Steps.get ⟨k, hk⟩).id)) none kwargs
      = (tr, .ok (states, executed))) :
    executed = Steps.drop k ∧ executed.length = Steps.length - k := by
  obtain ⟨tr2, sts, hrr, -, -⟩ :=
    run_ok_inv Steps initial_state (some ((Steps.get ⟨k, hk⟩).id)) none kwargs
      tr states executed h
  simp only [Option.isNone_some] at hrr
  have hpre : ∀ st ∈ Steps.take k,
      (some ((Steps.get ⟨k, hk⟩).id) : Option String) ≠ some st.id := by
    intro st hst hc
    obtain ⟨i, hi, hieq⟩ := List.getElem_of_mem hst
    rw [List.getElem_take] at hieq
    have hik : i < k := by
      simp only [List.length_take] at hi
      omega
    have hilen : i < Steps.length := Nat.lt_trans hik hk
    have hne := nodup_id_ne Steps hnd i k hilen hk (Nat.ne_of_lt hik)
    have hieq2 : Steps.get ⟨i, hilen⟩ = st := by
      rw [List.get_eq_getElem]
      exact hieq
    rw [hieq2] at hne
    exact hne (Option.some.inj hc).symm
  have hlead := runLoop_skipLeading (some ((Steps.get ⟨k, hk⟩).id)) none
    (Steps.take k) (Steps.drop k) initial_state hpre
  rw [List.take_append_drop, hrr] at hlead
  have hdrop : Steps.drop k = Steps.get ⟨k, hk⟩ :: Steps.drop (k+1) := by
    rw [List.drop_eq_getElem_cons hk]
    rfl
  rcases hp : runLoop (some ((Steps.get ⟨k, hk⟩).id)) none false initial_state (Steps.drop k)
    with ⟨tr3, res3⟩
  rw [hp] at hlead
  simp only at hlead
  rw [← hlead] at hp
  rw [hdrop] at hp
  have hexec := runLoop_execHead_all (some ((Steps.get ⟨k, hk⟩).id)) (Steps.get ⟨k, hk⟩)
    (Steps.drop (k+1)) initial_state tr3 sts executed rfl hp
  rw [← hdrop] at hexec
  refine ⟨hexec, ?_⟩
  rw [hexec, List.length_drop]

/-- Witness: C7 with `k = 1` on `[cexA, cexB]`. -/
theorem run_from_kth_witness :
    ([cexB] : List (StepDef Nat)) = [cexA, cexB].drop 1 ∧
    ([cexB] : List (StepDef Nat)).length = ([cexA, cexB] : List (StepDef Nat)).length - 1 :=
  run_from_kth [cexA, cexB] 0 [] (by decide) 1 (by decide)
    [.setMaxStageCount 2, .startStage "Step A", .endStage true,
     .startStage "Step B", .endStage false]
    [0, 10] [cexB] rfl

/-- C2 counterexample: pipeline `[cexA, cexB, cexC]` with distinct ids
and all steps succeeding, `frm = "b"` and `to = "a"` (the 1st step's id,
`k = 1`): the run succeeds with `executed = [cexB, cexC]` — not the first
`k` steps, and not even `k` steps — so the `to` behaviour is not
independent of `frm`. -/
theorem run_to_regardless_frm_cex :
    (run [cexA, cexB, cexC] 0 (some "b") (some "a") []).2
      = .ok ([0, 10, 110], [cexB, cexC]) ∧
    ((run [cexA, cexB, cexC] 0 (some "b") (some "a") []).2
      ≠ .ok ([0, 10, 110], [cexA])) ∧
    ([cexB, cexC] : List (StepDef Nat)).length ≠ ([cexA, cexB, cexC].take 1).length := by
  refine ⟨rfl, ?_, by decide⟩
  intro hc
  have h1 : ((run [cexA, cexB, cexC] 0 (some "b") (some "a") []).2 : Except FlowErr (List Nat × List (StepDef Nat)))
      = .ok ([0, 10, 110], [cexB, cexC]) := rfl
  rw [h1] at hc
  have h2 := (Prod.mk.injEq .. ▸ Except.ok.inj hc).2
  have h3 := congrArg List.length h2
  simp at h3

/-- C2 (amended): with distinct step ids, `frm` absent and a successful
run, `to` equal to the `k`-th step's id (0-indexed) executes exactly the
first `k+1` steps — `executed = Steps.take (k+1)`.  The original claim
also asserted this happens regardless of `frm`; that part is refuted by
`run_to_regardless_frm_cex`. -/
theorem run_to_kth {σ : Type} (Steps : List (StepDef σ)) (initial_state : σ)
    (kwargs : List (String × String)) (hnd : (Steps.map StepDef.id).Nodup)
    (k : Nat) (hk : k < Steps.length) (tr : List Ev)
    (states : List σ) (executed : List (StepDef σ))
    (h : run Steps initial_state none (some ((Steps.get ⟨k, hk⟩).id)) kwargs
      = (tr, .ok (states, executed))) :
    executed = Steps.take (k+1) ∧ executed.length = k+1 := by
  obtain ⟨tr2, sts, hrr, -, -⟩ :=
    run_ok_inv Steps initial_state none (some ((Steps.get ⟨k, hk⟩).id)) kwargs
      tr states executed h
  simp only [Option.isNone_none] at hrr
  have hpre : ∀ i (hi : i < k), (Steps.get ⟨i, Nat.lt_trans hi hk⟩).id ≠ (Steps.get ⟨k, hk⟩).id :=
    fun i hi => nodup_id_ne Steps hnd i k (Nat.lt_trans hi hk) hk (Nat.ne_of_lt hi)
  have hexec := runLoop_execTo ((Steps.get ⟨k, hk⟩).id) Steps k hk initial_state tr2 sts executed
    hpre rfl hrr
  refine ⟨hexec, ?_⟩
  rw [hexec, List.length_take]
  omega

/-- Witness: C2 (amended) with `k = 1` on `[cexA, cexB, cexC]`. -/
theorem run_to_kth_witness :
    ([cexA, cexB] : List (StepDef Nat)) = [cexA, cexB, cexC].take 2 ∧
    ([cexA, cexB] : List (StepDef Nat)).length = 2 :=
  run_to_kth [cexA, cexB, cexC] 0 [] (by decide) 1 (by decide)
    [.setMaxStageCount 3, .startStage "Step A", .endStage false,
     .startStage "Step B", .endStage false, .startStage "Step C", .endStage true]
    [0, 1, 11] [cexA, cexB] rfl

/-- C9: the `to` check runs only after an executed step.  An iteration
skipped because the enabled flag is false behaves identically for every
`toId` — including `toId` equal to that step's id — and leaves the flag
off.  With duplicate ids, a later step matching `frm` re-enables
execution after the window was closed: the concrete run over ids
`[a, b, a]` with `frm` and `to` both `"a"` executes both `a` steps. -/
theorem to_boundary_inert_when_skipped {σ : Type} :
    (∀ (frm toId : Option String) (step : StepDef σ) (rest : List (StepDef σ)) (cur : σ),
      frm ≠ some step.id →
      runLoop frm toId false cur (step :: rest) =
        (.startStage step.name :: .endStage true :: (runLoop frm toId false cur rest).1,
          (runLoop frm toId false cur rest).2)) ∧
    ((run [dupA1, dupB, dupA2] 0 (some "a") (some "a") []).2
      = .ok ([0, 1, 101], [dupA1, dupA2])) := by
  constructor
  · intro frm toId step rest cur hfrm
    exact runLoop_cons_skip frm toId step rest false cur (by rw [if_neg hfrm])
  · rfl

/-- Witness: C9 at a concrete skipped iteration with `toId` matching. -/
theorem to_boundary_inert_when_skipped_witness :
    runLoop (σ := Nat) none (some "a") false 0 [dupA2] =
      (.startStage "A2" :: .endStage true :: (runLoop none (some "a") false 0 []).1,
        (runLoop (σ := Nat) none (some "a") false 0 []).2) ∧
    ((run [dupA1, dupB, dupA2] 0 (some "a") (some "a") []).2
      = .ok ([0, 1, 101], [dupA1, dupA2])) :=
  ⟨(to_boundary_inert_when_skipped (σ := Nat)).1 none (some "a") dupA2 [] 0 (by decide),
   (to_boundary_inert_when_skipped (σ := Nat)).2⟩

/-- C3 counterexample: a pipeline of one failing step emits the trace
`[setMaxStageCount 1, startStage "F"]` — one `openStage` and zero
`closeStage` — so a failing iteration does not pair its `openStage` with
a `closeStage`. -/
theorem run_stage_pairing_cex :
    (run [failStep] 0 none none []).1 = [.setMaxStageCount 1, .startStage "F"] ∧
    ((run [failStep] 0 none none []).1).countP isStart = 1 ∧
    ((run [failStep] 0 none none []).1).countP isEnd = 0 ∧
    (run [failStep] 0 none none []).2 = .error (.flowException "missing x") :=
  ⟨rfl, rfl, rfl, rfl⟩

/-- C3 (amended): every call to `run` emits `setMaxStageCount` exactly
once, first, with `n` the number of step definitions.  On a run where
every executed step succeeds, the rest of the trace is a sequence of
`openStage`/`closeStage` pairs, one per pipeline step: each executed
step advances the stage ordinal by exactly one and each skipped step
closes without advancing.  On an aborted run the trace holds exactly one
more `openStage` than `closeStage`: the failing iteration opens its
stage but the exception propagates before the close.  The original claim
also asserted the open/close pairing for failing steps; that part is
refuted by `run_stage_pairing_cex`. -/
theorem run_progress_stage_spec {σ : Type} (Steps : List (StepDef σ)) (initial_state : σ)
    (frm toId : Option String) (kwargs : List (String × String)) :
    (∀ (tr : List Ev) (res : Except FlowErr (List σ × List (StepDef σ))),
      run Steps initial_state frm toId kwargs = (tr, res) →
      tr.head? = some (.setMaxStageCount Steps.length) ∧ tr.countP isSetMax = 1) ∧
    (∀ (tr : List Ev) (states : List σ) (executed : List (StepDef σ)),
      run Steps initial_state frm toId kwargs = (tr, .ok (states, executed)) →
      StagePaired tr.tail ∧ tr.countP isStart = Steps.length ∧
      tr.countP isEnd = Steps.length ∧
      tr.countP isEndAdvance = executed.length ∧
      tr.countP isEndSkip = Steps.length - executed.length ∧
      executed.length ≤ Steps.length) ∧
    (∀ (tr : List Ev) (e : FlowErr),
      run Steps initial_state frm toId kwargs = (tr, .error e) →
      tr.countP isStart = tr.countP isEnd + 1) := by
  refine ⟨?_, ?_, ?_⟩
  · intro tr res h
    have h1 := congrArg Prod.fst h
    simp only [run] at h1
    rw [← h1]
    refine ⟨rfl, ?_⟩
    simp only [List.countP_cons]
    have e0 : isSetMax (Ev.setMaxStageCount Steps.length) = true := rfl
    rw [e0, if_pos rfl, runLoop_trace_setMax frm toId Steps frm.isNone initial_state]
  · intro tr states executed h
    obtain ⟨tr2, sts, hrr, htr, -⟩ :=
      run_ok_inv Steps initial_state frm toId kwargs tr states executed h
    obtain ⟨hpair, hs, he, ha, hk⟩ :=
      runLoop_trace_ok frm toId Steps frm.isNone initial_state tr2 sts executed hrr
    subst htr
    have c1 : isStart (Ev.setMaxStageCount Steps.length) = false := rfl
    have c2 : isEnd (Ev.setMaxStageCount Steps.length) = false := rfl
    have c3 : isEndAdvance (Ev.setMaxStageCount Steps.length) = false := rfl
    have c4 : isEndSkip (Ev.setMaxStageCount Steps.length) = false := rfl
    simp only [List.countP_cons, c1, c2, c3, c4,
      if_neg (by simp : ¬ (false = true)), List.tail_cons]
    exact ⟨hpair, hs, he, ha, by omega, by omega⟩
  · intro tr e h
    obtain ⟨tr2, hrr, htr⟩ := run_error_inv Steps initial_state frm toId kwargs tr e h
    have := runLoop_trace_error frm toId Steps frm.isNone initial_state tr2 e hrr
    subst htr
    have c1 : isStart (Ev.setMaxStageCount Steps.length) = false := rfl
    have c2 : isEnd (Ev.setMaxStageCount Steps.length) = false := rfl
    simp only [List.countP_cons, c1, c2, if_neg (by simp : ¬ (false = true))]
    omega

/-- Witness: C3 (amended) on a failing one-step run and a successful
one-step run. -/
theorem run_progress_stage_spec_witness :
    (([Ev.setMaxStageCount 1, Ev.startStage "F"] : List Ev).head?
        = some (.setMaxStageCount ([failStep] : List (StepDef Nat)).length) ∧
      ([Ev.setMaxStageCount 1, Ev.startStage "F"] : List Ev).countP isSetMax = 1) ∧
    (StagePaired ([Ev.setMaxStageCount 1, Ev.startStage "Step A", Ev.endStage false] : List Ev).tail ∧
      ([Ev.setMaxStageCount 1, Ev.startStage "Step A", Ev.endStage false] : List Ev).countP isStart
        = ([cexA] : List (StepDef Nat)).length) ∧
    (([Ev.setMaxStageCount 1, Ev.startStage "F"] : List Ev).countP isStart
      = ([Ev.setMaxStageCount 1, Ev.startStage "F"] : List Ev).countP isEnd + 1) :=
  ⟨(run_progress_stage_spec [failStep] 0 none none []).1
      [Ev.setMaxStageCount 1, Ev.startStage "F"] (.error (.flowException "missing x")) rfl,
   ⟨((run_progress_stage_spec [cexA] 0 none none []).2.1
      [Ev.setMaxStageCount 1, Ev.startStage "Step A", Ev.endStage false] [0, 1] [cexA] rfl).1,
    ((run_progress_stage_spec [cexA] 0 none none []).2.1
      [Ev.setMaxStageCount 1, Ev.startStage "Step A", Ev.endStage false] [0, 1] [cexA] rfl).2.1⟩,
   (run_progress_stage_spec [failStep] 0 none none []).2.2
      [Ev.setMaxStageCount 1, Ev.startStage "F"] (.flowException "missing x") rfl⟩

/-- C4: an executed step failing with `MissingInputError` makes the run
raise `FlowException` with the message verbatim, immediately — the
iteration returns only its `openStage` event, so no later step executes;
a `CalledProcessError` likewise raises `FlowError`; and conversely every
error raised by `run` originates in a step failure of the matching class
with the message carried verbatim. -/
theorem run_error_classification {σ : Type} :
    (∀ (frm toId : Option String) (step : StepDef σ) (rest : List (StepDef σ)) (ex : Bool)
        (cur : σ) (m : String),
      (if frm = some step.id then true else ex) = true →
      step.start cur = .error (.missingInputError m) →
      runLoop frm toId ex cur (step :: rest)
        = ([.startStage step.name], .error (.flowException m))) ∧
    (∀ (frm toId : Option String) (step : StepDef σ) (rest : List (StepDef σ)) (ex : Bool)
        (cur : σ) (m : String),
      (if frm = some step.id then true else ex) = true →
      step.start cur = .error (.calledProcessError m) →
      runLoop frm toId ex cur (step :: rest)
        = ([.startStage step.name], .error (.flowError m))) ∧
    (∀ (Steps : List (StepDef σ)) (initial_state : σ) (frm toId : Option String)
        (kwargs : List (String × String)) (tr : List Ev) (e : FlowErr),
      run Steps initial_state frm toId kwargs = (tr, .error e) →
      ∃ st ∈ Steps, ∃ s m,
        ((e = .flowException m ∧ st.start s = .error (.missingInputError m)) ∨
         (e = .flowError m ∧ st.start s = .error (.calledProcessError m)))) := by
  refine ⟨?_, ?_, ?_⟩
  · intro frm toId step rest ex cur m hex hst
    rw [runLoop_cons_exec frm toId step rest ex cur hex, hst]
  · intro frm toId step rest ex cur m hex hst
    rw [runLoop_cons_exec frm toId step rest ex cur hex, hst]
  · intro Steps initial_state frm toId kwargs tr e h
    obtain ⟨tr2, hrr, -⟩ := run_error_inv Steps initial_state frm toId kwargs tr e h
    exact runLoop_error_char frm toId Steps frm.isNone initial_state tr2 e hrr

/-- Witness: C4 on `failStep` (missing input) and `failTool`
(called-process failure). -/
theorem run_error_classification_witness :
    runLoop (σ := Nat) none none true 0 [failStep]
      = ([.startStage "F"], .error (.flowException "missing x")) ∧
    runLoop (σ := Nat) none none true 0 [failTool]
      = ([.startStage "G"], .error (.flowError "exit 1")) ∧
    (∃ st ∈ ([failStep] : List (StepDef Nat)), ∃ s m,
      ((FlowErr.flowException "missing x" = .flowException m
          ∧ st.start s = .error (.missingInputError m)) ∨
       (FlowErr.flowException "missing x" = .flowError m
          ∧ st.start s = .error (.calledProcessError m)))) :=
  ⟨(run_error_classification (σ := Nat)).1 none none failStep [] true 0 "missing x" rfl rfl,
   (run_error_classification (σ := Nat)).2.1 none none failTool [] true 0 "exit 1" rfl rfl,
   (run_error_classification (σ := Nat)).2.2 [failStep] 0 none none []
     [.setMaxStageCount 1, .startStage "F"] (.flowException "missing x") rfl⟩

/-- C8: `make` fails with the `TypeError` message naming the first
unknown id when any id has no registered step definition (fail-fast, no
pipeline is produced); otherwise it returns a pipeline definition whose
display name is the generic `"Custom Sequential Flow"` and whose step
list is exactly the resolved definitions in the given order. -/
theorem make_spec {σ : Type} (registry : List (String × StepDef σ)) :
    (∀ (step_ids : List String) (n : String),
      step_ids.find? (fun x => (factoryGet registry x).isNone) = some n →
      make registry step_ids = .error ("No step found with id '" ++ n ++ "'")) ∧
    (∀ (step_ids : List String),
      (∀ n ∈ step_ids, (factoryGet registry n).isSome = true) →
      ∃ fd, make registry step_ids = .ok fd ∧
        fd.name = "Custom Sequential Flow" ∧
        fd.Steps.length = step_ids.length ∧
        ∀ (i : Nat) (hi : i < step_ids.length) (hi2 : i < fd.Steps.length),
          factoryGet registry (step_ids.get ⟨i, hi⟩) = some (fd.Steps.get ⟨i, hi2⟩)) := by
  constructor
  · intro step_ids n hfind
    simp only [make]
    rw [makeSteps_first_unknown registry step_ids n hfind]
  · intro step_ids hall
    obtain ⟨steps, hok, hlen, hget⟩ := makeSteps_all_known registry step_ids hall
    refine ⟨⟨"Custom Sequential Flow", steps⟩, ?_, rfl, hlen, hget⟩
    simp only [make]
    rw [hok]

/-- Witness: C8 on the registry `regAB`, with an unknown id `"x"` and
with all ids known. -/
theorem make_spec_witness :
    make regAB ["a", "x", "b"] = .error ("No step found with id '" ++ "x" ++ "'") ∧
    (∃ fd, make regAB ["b", "a"] = .ok fd ∧
      fd.name = "Custom Sequential Flow" ∧
      fd.Steps.length = (["b", "a"] : List String).length ∧
      ∀ (i : Nat) (hi : i < (["b", "a"] : List String).length) (hi2 : i < fd.Steps.length),
        factoryGet regAB ((["b", "a"] : List String).get ⟨i, hi⟩)
          = some (fd.Steps.get ⟨i, hi2⟩)) :=
  ⟨(make_spec regAB).1 ["a", "x", "b"] "x" rfl,
   (make_spec regAB).2 ["b", "a"] (by decide)⟩

end OpenLane
